import Mathlib

/-!
Verification of the RAG conversational agent's chunking pipeline and
two-stage retrieval engine.

Sources embedded here:
* `Agent/Chunking/agentic_chunker_ollama.py` — `AgenticChunker.chunk_paragraph`
* `Agent/Chunking/process_paragraph.py`     — `process_paragraph`
* `Agent/Chunking/registry.py`              — `load_registry`
* `Agent/Chunking/main_chunking.py`         — `load_json_or_empty`, `main`
* `Agent/Chunking/file_readers.py`          — `read_pdf`, `read_docx`, `read_txt`
* `Agent/Embedding/indexation_database.py`  — the `unique_id` / upsert loop
* `Agent/Embedding/search_and_rerank.py`    — `search_and_rerank`

Text is modelled as `List Char`; Python `str.strip()` and `str.split(sep)`
are re-implemented character by character below.  Scores (Python floats)
are modelled as rationals.  Calls into external services (Ollama, Qdrant,
the embedding and reranker models, `uuid4`, `json.loads`) are modelled as
explicit inputs: the functions under test are deterministic in them.
-/

namespace RAGAgent

/-- Text content, modelled as a list of characters. -/
abbrev Text := List Char

/-- The characters removed by Python's `str.strip()` with no argument. -/
def isStripChar (c : Char) : Bool :=
  c = ' ' || c = '\t' || c = '\n' || c = '\r' || c = '\x0b' || c = '\x0c'

/-- Remove the leading whitespace characters (the left half of `str.strip()`). -/
def dropLeadingWs : Text → Text
  | [] => []
  | c :: cs => if isStripChar c then dropLeadingWs cs else c :: cs

/-- Remove the trailing whitespace characters (the right half of `str.strip()`). -/
def dropTrailingWs (s : Text) : Text :=
  (dropLeadingWs s.reverse).reverse

/-- Python's `str.strip()`: remove leading and trailing whitespace. -/
def pyStrip (s : Text) : Text :=
  dropTrailingWs (dropLeadingWs s)

/-- Python's `str.split(sep)` for a one-character separator: split at every
occurrence of `sep`, keeping empty fields (`"".split(sep) == [""]`). -/
def pySplit (sep : Char) : Text → List Text
  | [] => [[]]
  | c :: cs =>
    match pySplit sep cs with
    | [] => [[c]]
    | h :: t => if c = sep then [] :: h :: t else (c :: h) :: t

/- ----------------------------------------------------------------
Semantic chunker (`agentic_chunker_ollama.py`).

`chunk_paragraph` formats the paragraph into a prompt, queries the LLM and
parses the reply with `[c.strip() for c in response.split("/") if c.strip()]`.
The LLM reply is an input here (`response`); the paragraph text only
enters the prompt, never the parsing.
---------------------------------------------------------------- -/

/-- A chunk record as built by `AgenticChunker.chunk_paragraph`. -/
structure ChunkRec where
  parent_paragraph_id : String
  page_number : Nat
  document_name : String
  text : Text
deriving DecidableEq

/-- The list comprehension `[c.strip() for c in response.split("/") if c.strip()]`:
split the service reply on `/`, strip each fragment, drop the empty ones. -/
def rawChunks (response : Text) : List Text :=
  ((pySplit '/' response).map pyStrip).filter (fun c => !c.isEmpty)

/-- `AgenticChunker.chunk_paragraph`: parse the service `response` and attach
the provenance metadata to every fragment.  (The `time.sleep` throttle has no
effect on the returned value.) -/
def chunk_paragraph (paragraph_text : Text) (document_name : String)
    (page_number : Nat) (parent_id : String) (response : Text) : List ChunkRec :=
  (rawChunks response).map fun chunk_text =>
    { parent_paragraph_id := parent_id
      page_number := page_number
      document_name := document_name
      text := chunk_text }

/-- The paragraph record built by `process_paragraph`. -/
structure ParagraphRec where
  paragraph_id : String
  document_name : String
  page_number : Nat
  text : Text
deriving DecidableEq

/-- `process_paragraph`: generate a paragraph id (`str(uuid4())[:8]`, modelled
as the input `paragraph_id` since it is external randomness), chunk the text
via the LLM (`response` is the service reply), and return the paragraph record
together with its chunks. -/
def process_paragraph (paragraph_text : Text) (file_name : String)
    (page_number : Nat) (paragraph_id : String) (response : Text) :
    ParagraphRec × List ChunkRec :=
  ({ paragraph_id := paragraph_id
     document_name := file_name
     page_number := page_number
     text := paragraph_text },
   chunk_paragraph paragraph_text file_name page_number paragraph_id response)

/- ----------------------------------------------------------------
Stable descending sort.

`search_and_rerank` runs `kept.sort(key=lambda x: x[1], reverse=True)`.
Python's `list.sort` is a stable sort; with `reverse=True` the list ends up
ordered by descending key with ties kept in their original relative order.
`sortDesc` models it by stable insertion: each element is inserted into the
already-sorted accumulator, moving in front of an element only when its score
is strictly greater.  The C2 theorem proves the characterizing properties
(permutation, descending order, stability), which determine the result of any
stable descending sort uniquely.
---------------------------------------------------------------- -/

/-- Insert `x` into a descending-sorted list, after every element whose score
is greater than or equal to `score x`. -/
def insertDesc {α : Type} (score : α → ℚ) (x : α) : List α → List α
  | [] => [x]
  | y :: ys => if score y < score x then x :: y :: ys else y :: insertDesc score x ys

/-- Stable sort by descending `score`: Python's `sort(key=score, reverse=True)`. -/
def sortDesc {α : Type} (score : α → ℚ) (l : List α) : List α :=
  l.foldl (fun acc x => insertDesc score x acc) []

/- ----------------------------------------------------------------
Two-stage retrieval engine (`search_and_rerank.py`).

Stage 1 (query embedding + Qdrant vector search) and stage 2 (cross-encoder
scoring) are external services; the engine's own logic starts from
`pairs = list(zip(points, scores))`, the stage-1 candidates in stage-1 order
zipped with their stage-2 scores.  The paragraph store `df_parents` is a list
of `(paragraph_id, text)` rows.
---------------------------------------------------------------- -/

/-- The payload of a Qdrant point, as read with `payload.get(...)`: a field can
be absent (`None`).  The chunk text is mandatory: line 98 reads
`p.payload["Chunk"]` unconditionally. -/
structure QPayload where
  Doc : Option String
  Page : Option Nat
  ParentID : Option String
  Chunk : Text
deriving DecidableEq

/-- A vector point returned by the search backend.  `score` is the similarity
score attribute, which may be absent (`getattr(p, "score", 0)`). -/
structure QPoint where
  score : Option ℚ
  payload : QPayload
deriving DecidableEq

/-- One retrieval result dictionary (`dict_chunk`). -/
structure RResult where
  rank : Nat
  rerank_score : ℚ
  doc : Option String
  page : Option Nat
  parent_id : Option String
  chunk : Text
  similarity_score : ℚ
deriving DecidableEq

/-- `kept = [(p, s) for (p, s) in pairs if s >= threshold]`, generic in the
element type with the sort key `score` (the code uses `x[1]`). -/
def keptList {α : Type} (score : α → ℚ) (threshold : ℚ) (l : List α) : List α :=
  l.filter fun x => threshold ≤ score x

/-- Threshold filter, stable descending sort on the stage-2 score, truncation:
`kept.sort(key=lambda x: x[1], reverse=True)` followed by `kept[:final_k]`. -/
def rankList {α : Type} (score : α → ℚ) (threshold : ℚ) (final_k : Nat)
    (l : List α) : List α :=
  (sortDesc score (keptList score threshold l)).take final_k

/-- The `dict_chunk` built for the `i`-th retained pair (0-based `enumerate`):
`rank = i + 1`, `similarity_score = float(getattr(p, "score", 0))`. -/
def mkResult (i : Nat) (p : QPoint) (s : ℚ) : RResult :=
  { rank := i + 1
    rerank_score := s
    doc := p.payload.Doc
    page := p.payload.Page
    parent_id := p.payload.ParentID
    chunk := p.payload.Chunk
    similarity_score := p.score.getD 0 }

/-- The ordered result list of one query: one `dict_chunk` per retained pair. -/
def buildResults (pairs : List (QPoint × ℚ)) (threshold : ℚ) (final_k : Nat) :
    List RResult :=
  (rankList Prod.snd threshold final_k pairs).enum.map fun ip => mkResult ip.1 ip.2.1 ip.2.2

/-- One iteration of the parents-map construction: skip if the id is already a
key; otherwise look the id up in the paragraph store (first matching row, as
`parent_row.iloc[0]`) and append the entry only when a row was found.  A `None`
parent id matches no store row (`df["paragraph_id"] == None` selects nothing). -/
def parentsStep (store : List (String × Text)) (parents : List (Option String × Text))
    (pid : Option String) : List (Option String × Text) :=
  if (parents.find? fun kv => kv.1 = pid).isSome then parents
  else
    match pid with
    | none => parents
    | some k =>
      match store.find? fun row => row.1 = k with
      | some row => parents ++ [(pid, row.2)]
      | none => parents

/-- The parents map accumulated over the retained results in emission order
(Python dicts preserve insertion order, modelled as an association list). -/
def buildParents (store : List (String × Text)) (results : List RResult) :
    List (Option String × Text) :=
  results.foldl (fun ps r => parentsStep store ps r.parent_id) []

/-- `search_and_rerank`, from the zipped candidate/score pairs on: the result
list and the parents map. -/
def search_and_rerank (pairs : List (QPoint × ℚ)) (store : List (String × Text))
    (threshold : ℚ) (final_k : Nat) : List RResult × List (Option String × Text) :=
  (buildResults pairs threshold final_k,
   buildParents store (buildResults pairs threshold final_k))

/- ----------------------------------------------------------------
Persisted-store loaders (`registry.py` and `main_chunking.py`).

`json.loads` is external library code; it is modelled by the oracle argument
`parse`, which returns `none` exactly when `json.loads` would raise
`json.JSONDecodeError` on that text (malformed JSON) and the decoded list
otherwise.  A raised-and-uncaught exception is modelled as `Except.error`.
---------------------------------------------------------------- -/

/-- `load_registry(path)`: if the file exists, strip its text; if the stripped
content is non-empty, decode it into a set; a decode error is caught
(`except json.JSONDecodeError`) and falls through to returning the empty set,
as do a missing file and empty content. -/
def load_registry (fileExists : Bool) (content : Text)
    (parse : Text → Option (List String)) : Except Unit (Finset String) :=
  if fileExists then
    if (pyStrip content).isEmpty then Except.ok ∅
    else
      match parse (pyStrip content) with
      | some l => Except.ok l.toFinset
      | none => Except.ok ∅
  else Except.ok ∅

/-- `load_json_or_empty(path)` from `main_chunking.py`: if the file exists,
`json.loads` its text with no exception handler — a decode error propagates to
the caller; only a missing file yields the empty list. -/
def load_json_or_empty {α : Type} (fileExists : Bool) (content : Text)
    (parse : Text → Option (List α)) : Except Unit (List α) :=
  if fileExists then
    match parse content with
    | some l => Except.ok l
    | none => Except.error ()
  else Except.ok []

/- ----------------------------------------------------------------
Document extractor (`file_readers.py`).

The underlying parsing libraries are external: `read_pdf` receives the list
of raw page texts PyMuPDF extracts, `read_docx` the list of paragraph texts
python-docx yields, `read_txt` the file content.
---------------------------------------------------------------- -/

/-- One extracted page: `{"page_number": ..., "text": ...}`. -/
structure PageRec where
  page_number : Nat
  text : Text
deriving DecidableEq

/-- `read_pdf`: enumerate pages from 1, strip each page's text, keep only
pages whose stripped text is non-empty. -/
def read_pdf (pageTexts : List Text) : List PageRec :=
  (List.enumFrom 1 pageTexts).filterMap fun it =>
    if (pyStrip it.2).isEmpty then none
    else some { page_number := it.1, text := pyStrip it.2 }

/-- `read_docx`: join the paragraphs whose stripped text is non-empty with
newlines, strip the join, and return it as the single page 1 — even when the
join is empty. -/
def read_docx (paras : List Text) : List PageRec :=
  [{ page_number := 1
     text := pyStrip (List.intercalate ['\n'] (paras.filter fun p => !(pyStrip p).isEmpty)) }]

/-- `read_txt`: the whole stripped file content as the single page 1 — even
when it is empty. -/
def read_txt (content : Text) : List PageRec :=
  [{ page_number := 1, text := pyStrip content }]

/- ----------------------------------------------------------------
Vector indexer (`indexation_database.py`).

Each validated chunk row yields one point whose id is
`uuid.uuid5(uuid.NAMESPACE_DNS, f"{Doc}|{Page}|{Parent}|{Chunk}")`.  `uuid5`
is a fixed deterministic function of its input string, so the identifier is
modelled by that input string itself (identifier equality is key-string
equality, up to SHA-1 collisions which the model ignores).  The vector
collection is modelled as a map from id to payload; `client.upsert` writes
every point at its id, overwriting.  The embedding vector is itself a
deterministic function of the chunk text and is omitted from the payload
model.
---------------------------------------------------------------- -/

/-- One normalized row of `chunks.json` (`Chunk`/`Doc`/`Page`/`Parent`), which
is also the payload stored with the point (`ParentID := Parent`). -/
structure ChunkRow where
  Chunk : Text
  Doc : String
  Page : Nat
  Parent : String
deriving DecidableEq

/-- The uuid5 content key `f"{Doc}|{Page}|{Parent}|{Chunk}"`. -/
def unique_id (r : ChunkRow) : Text :=
  r.Doc.toList ++ '|' :: Nat.toDigits 10 r.Page ++ '|' :: r.Parent.toList ++ '|' :: r.Chunk

/-- The point list built by the indexing loop: one `(id, payload)` per row. -/
def mkPoints (rows : List ChunkRow) : List (Text × ChunkRow) :=
  rows.map fun r => (unique_id r, r)

/-- `client.upsert`: write every point into the collection at its id,
overwriting whatever was there. -/
def upsertPoints (coll : Text → Option ChunkRow) (pts : List (Text × ChunkRow)) :
    Text → Option ChunkRow :=
  pts.foldl (fun c p => Function.update c p.1 (some p.2)) coll

/-- The last payload written for a key by a point list, if any. -/
def lastWrite : List (Text × ChunkRow) → Text → Option ChunkRow
  | [], _ => none
  | p :: ps, k =>
    match lastWrite ps k with
    | some v => some v
    | none => if p.1 = k then some p.2 else none

/- ----------------------------------------------------------------
Chunking orchestrator (`main_chunking.py`, `main`).

The pass's externally visible persistence effects, in program order:
an initializing registry write (`registry_path.write_text("[]")`) when the
registry file is missing or empty; then, unless no new file qualifies
(early return), the paragraph-store write, the chunk-store write, one
`shutil.move` per processed file in list order (the in-memory
`processed_registry.add` has no external effect), and finally
`save_registry` with all processed names added.
---------------------------------------------------------------- -/

/-- A persistence effect of the orchestrator pass. -/
inductive OrchEvent where
  | writeParagraphs
  | writeChunks
  | moveFile (name : String)
  | saveRegistry (names : Finset String)
deriving DecidableEq

/-- A file in the intake directory: its name and lower-cased suffix. -/
structure IntakeFile where
  name : String
  suffix : String
deriving DecidableEq

/-- `SUPPORTED_EXT = [".pdf", ".docx", ".txt"]`. -/
def SUPPORTED_EXT : List String := [".pdf", ".docx", ".txt"]

/-- `new_files`: files with a supported suffix whose name is not registered. -/
def newFiles (registry : Finset String) (intake : List IntakeFile) : List IntakeFile :=
  intake.filter fun f => f.suffix ∈ SUPPORTED_EXT ∧ f.name ∉ registry

/-- The event trace of one `main` pass. -/
def mainEvents (registryFileEmptyOrMissing : Bool) (registry : Finset String)
    (intake : List IntakeFile) : List OrchEvent :=
  (if registryFileEmptyOrMissing then [OrchEvent.saveRegistry ∅] else []) ++
    (if (newFiles registry intake).isEmpty then []
     else
       [OrchEvent.writeParagraphs, OrchEvent.writeChunks] ++
         (newFiles registry intake).map (fun f => OrchEvent.moveFile f.name) ++
         [OrchEvent.saveRegistry
           (registry ∪ ((newFiles registry intake).map (fun f => f.name)).toFinset)])

theorem dropLeadingWs_idem (s : Text) : dropLeadingWs (dropLeadingWs s) = dropLeadingWs s := by
  induction s with
  | nil => rfl
  | cons c cs ih =>
    by_cases h : isStripChar c
    · simp [dropLeadingWs, h, ih]
    · simp [dropLeadingWs, h]

theorem dropLeadingWs_head (s : Text) :
    dropLeadingWs s = [] ∨ ∃ c cs, dropLeadingWs s = c :: cs ∧ isStripChar c = false := by
  induction s with
  | nil => exact Or.inl rfl
  | cons c cs ih =>
    by_cases h : isStripChar c
    · simpa [dropLeadingWs, h] using ih
    · exact Or.inr ⟨c, cs, by simp [dropLeadingWs, h], by simpa using h⟩

theorem dropLeadingWs_append_last (xs : Text) (c : Char) (hc : isStripChar c = false) :
    ∃ ys, dropLeadingWs (xs ++ [c]) = ys ++ [c] := by
  induction xs with
  | nil => exact ⟨[], by simp [dropLeadingWs, hc]⟩
  | cons x xs ih =>
    by_cases h : isStripChar x
    · simpa [dropLeadingWs, h] using ih
    · exact ⟨x :: xs, by simp [dropLeadingWs, h]⟩

theorem dropTrailingWs_idem (s : Text) : dropTrailingWs (dropTrailingWs s) = dropTrailingWs s := by
  unfold dropTrailingWs
  rw [List.reverse_reverse, dropLeadingWs_idem]

theorem dropLeadingWs_dropTrailingWs (s : Text)
    (h : dropLeadingWs s = s) : dropLeadingWs (dropTrailingWs s) = dropTrailingWs s := by
  rcases dropLeadingWs_head s with h0 | ⟨c, cs, hc, hcw⟩
  · rw [h] at h0; subst h0; rfl
  · rw [h] at hc; subst hc
    unfold dropTrailingWs
    rcases dropLeadingWs_append_last cs.reverse c hcw with ⟨ys, hy⟩
    rw [List.reverse_cons, hy, List.reverse_append]
    simp [dropLeadingWs, hcw]

/-- `str.strip()` is idempotent. -/
theorem pyStrip_idem (s : Text) : pyStrip (pyStrip s) = pyStrip s := by
  unfold pyStrip
  rw [dropLeadingWs_dropTrailingWs (dropLeadingWs s) (dropLeadingWs_idem s),
      dropTrailingWs_idem]

/-- C1. The claim states that for every paragraph and every segmentation
response, concatenating the emitted chunk texts in order (removing only the
separator) reproduces the paragraph text exactly.  The code violates this:
`chunk_paragraph` strips surrounding whitespace from every fragment, so even a
response that honours the prompt's own "INVARIANT ABSOLU" loses the whitespace
at chunk boundaries.  Here the paragraph `"a b"` with the compliant response
`"a/ b"` yields chunks `"a"` and `"b"`, whose concatenation `"ab"` differs from
the paragraph. -/
theorem C1_roundtrip_fails_at_a_b :
    List.flatten ((chunk_paragraph ("a b".toList) "doc.txt" 1 "p1" ("a/ b".toList)).map
        ChunkRec.text) ≠ "a b".toList := by
  decide

/-- C9. Every chunk record returned by the chunker has non-empty text equal to
its own strip, and carries exactly the parent id, page number and document name
passed in — which are exactly the fields of the paragraph record built by
`process_paragraph`. -/
theorem C9_chunk_metadata_and_strip (ptext : Text) (fname : String) (pnum : Nat)
    (pid : String) (resp : Text) :
    ∀ c ∈ (process_paragraph ptext fname pnum pid resp).2,
      c.text ≠ [] ∧ pyStrip c.text = c.text ∧
      c.parent_paragraph_id = pid ∧ c.page_number = pnum ∧ c.document_name = fname ∧
      (process_paragraph ptext fname pnum pid resp).1 =
        { paragraph_id := pid, document_name := fname, page_number := pnum, text := ptext } := by
  intro c hc
  simp only [process_paragraph, chunk_paragraph, List.mem_map] at hc
  obtain ⟨t, ht, rfl⟩ := hc
  simp only [rawChunks, List.mem_filter, List.mem_map] at ht
  obtain ⟨⟨s, _, rfl⟩, hne⟩ := ht
  refine ⟨?_, pyStrip_idem s, rfl, rfl, rfl, rfl⟩
  simpa [List.isEmpty_iff] using hne

/-- Witness for C9 at the paragraph `"ab"` with service response `"x/ab"`. -/
theorem C9_chunk_metadata_and_strip_witness :
    (⟨"p1", 2, "doc.txt", ['a', 'b']⟩ : ChunkRec).text ≠ [] ∧
      pyStrip (ChunkRec.text ⟨"p1", 2, "doc.txt", ['a', 'b']⟩) =
        (⟨"p1", 2, "doc.txt", ['a', 'b']⟩ : ChunkRec).text ∧
      (⟨"p1", 2, "doc.txt", ['a', 'b']⟩ : ChunkRec).parent_paragraph_id = "p1" ∧
      (⟨"p1", 2, "doc.txt", ['a', 'b']⟩ : ChunkRec).page_number = 2 ∧
      (⟨"p1", 2, "doc.txt", ['a', 'b']⟩ : ChunkRec).document_name = "doc.txt" ∧
      (process_paragraph ("ab".toList) "doc.txt" 2 "p1" ("x/ab".toList)).1 =
        { paragraph_id := "p1", document_name := "doc.txt", page_number := 2,
          text := "ab".toList } :=
  C9_chunk_metadata_and_strip ("ab".toList) "doc.txt" 2 "p1" ("x/ab".toList)
    ⟨"p1", 2, "doc.txt", ['a', 'b']⟩ (by decide)

theorem mem_insertDesc {α : Type} (score : α → ℚ) (x a : α) (l : List α) :
    a ∈ insertDesc score x l ↔ a = x ∨ a ∈ l := by
  induction l with
  | nil => simp [insertDesc]
  | cons y ys ih =>
    by_cases h : score y < score x
    · simp [insertDesc, h]
    · simp [insertDesc, h, ih]
      tauto

theorem insertDesc_perm {α : Type} (score : α → ℚ) (x : α) (l : List α) :
    (insertDesc score x l).Perm (x :: l) := by
  induction l with
  | nil => exact List.Perm.refl _
  | cons y ys ih =>
    by_cases h : score y < score x
    · simp [insertDesc, h]
    · simp only [insertDesc, h, if_false]
      exact (ih.cons y).trans (List.Perm.swap x y ys)

theorem sortDesc_aux_perm {α : Type} (score : α → ℚ) :
    ∀ (l acc : List α),
      (l.foldl (fun acc x => insertDesc score x acc) acc).Perm (l ++ acc) := by
  intro l
  induction l with
  | nil => intro acc; simp
  | cons a l ih =>
    intro acc
    have h1 := ih (insertDesc score a acc)
    have h2 : (l ++ insertDesc score a acc).Perm (l ++ a :: acc) :=
      (insertDesc_perm score a acc).append_left l
    have h3 : (l ++ a :: acc).Perm (a :: (l ++ acc)) := List.perm_middle
    simpa using (h1.trans h2).trans h3

/-- The sort is a permutation of its input. -/
theorem sortDesc_perm {α : Type} (score : α → ℚ) (l : List α) :
    (sortDesc score l).Perm l := by
  simpa using sortDesc_aux_perm score l []

theorem insertDesc_pairwise {α : Type} (score : α → ℚ) (x : α) (l : List α)
    (h : l.Pairwise (fun a b => score b ≤ score a)) :
    (insertDesc score x l).Pairwise (fun a b => score b ≤ score a) := by
  induction l with
  | nil => simp [insertDesc]
  | cons y ys ih =>
    rcases List.pairwise_cons.mp h with ⟨hy, hys⟩
    by_cases hxy : score y < score x
    · rw [insertDesc, if_pos hxy]
      refine List.pairwise_cons.mpr ⟨?_, h⟩
      intro z hz
      rcases List.mem_cons.mp hz with rfl | hz
      · exact le_of_lt hxy
      · exact le_trans (hy z hz) (le_of_lt hxy)
    · rw [insertDesc, if_neg hxy]
      refine List.pairwise_cons.mpr ⟨?_, ih hys⟩
      intro z hz
      rcases (mem_insertDesc score x z ys).mp hz with rfl | hz'
      · exact le_of_not_lt hxy
      · exact hy z hz'

/-- The sort output is descending in `score`. -/
theorem sortDesc_sorted {α : Type} (score : α → ℚ) (l : List α) :
    (sortDesc score l).Pairwise (fun a b => score b ≤ score a) := by
  suffices h : ∀ (l acc : List α), acc.Pairwise (fun a b => score b ≤ score a) →
      (l.foldl (fun acc x => insertDesc score x acc) acc).Pairwise
        (fun a b => score b ≤ score a) by
    exact h l [] (List.Pairwise.nil)
  intro l
  induction l with
  | nil => intro acc hacc; exact hacc
  | cons a l ih =>
    intro acc hacc
    exact ih _ (insertDesc_pairwise score a acc hacc)

theorem insertDesc_pairwise_lex {α : Type} (score : α → ℚ) (idx : α → ℕ) (x : α)
    (l : List α)
    (hl : l.Pairwise (fun a b => score b < score a ∨ (score a = score b ∧ idx a < idx b)))
    (hx : ∀ y ∈ l, idx y < idx x) :
    (insertDesc score x l).Pairwise
      (fun a b => score b < score a ∨ (score a = score b ∧ idx a < idx b)) := by
  induction l with
  | nil => simp [insertDesc]
  | cons y ys ih =>
    rcases List.pairwise_cons.mp hl with ⟨hy, hys⟩
    by_cases hxy : score y < score x
    · rw [insertDesc, if_pos hxy]
      refine List.pairwise_cons.mpr ⟨?_, hl⟩
      intro z hz
      rcases List.mem_cons.mp hz with rfl | hz
      · exact Or.inl hxy
      · rcases hy z hz with h | ⟨he, _⟩
        · exact Or.inl (lt_trans h hxy)
        · exact Or.inl (he ▸ hxy)
    · rw [insertDesc, if_neg hxy]
      refine List.pairwise_cons.mpr
        ⟨?_, ih hys (fun z hz => hx z (List.mem_cons_of_mem y hz))⟩
      intro z hz
      rcases (mem_insertDesc score x z ys).mp hz with rfl | hz'
      · rcases lt_or_eq_of_le (le_of_not_lt hxy) with h | h
        · exact Or.inl h
        · exact Or.inr ⟨h.symm, hx y (List.mem_cons_self y ys)⟩
      · exact hy z hz'

/-- Stability: if the input carries strictly increasing positions `idx`, the
sorted output is ordered by descending score with ties broken by ascending
position. -/
theorem sortDesc_pairwise_lex {α : Type} (score : α → ℚ) (idx : α → ℕ) (l : List α)
    (hl : l.Pairwise (fun a b => idx a < idx b)) :
    (sortDesc score l).Pairwise
      (fun a b => score b < score a ∨ (score a = score b ∧ idx a < idx b)) := by
  suffices h : ∀ (l acc : List α),
      acc.Pairwise (fun a b => score b < score a ∨ (score a = score b ∧ idx a < idx b)) →
      (∀ a ∈ acc, ∀ b ∈ l, idx a < idx b) →
      l.Pairwise (fun a b => idx a < idx b) →
      (l.foldl (fun acc x => insertDesc score x acc) acc).Pairwise
        (fun a b => score b < score a ∨ (score a = score b ∧ idx a < idx b)) by
    exact h l [] List.Pairwise.nil (by simp) hl
  intro l
  induction l with
  | nil => intro acc hacc _ _; exact hacc
  | cons b l ih =>
    intro acc hacc hcross hl'
    rcases List.pairwise_cons.mp hl' with ⟨hb, hltail⟩
    refine ih (insertDesc score b acc) ?_ ?_ hltail
    · exact insertDesc_pairwise_lex score idx b acc hacc
        (fun y hy => hcross y hy b (List.mem_cons_self b l))
    · intro a ha c hc
      rcases (mem_insertDesc score b a acc).mp ha with rfl | ha'
      · exact hb c hc
      · exact hcross a ha' c (List.mem_cons_of_mem b hc)

theorem insertDesc_map {α β : Type} (score : α → ℚ) (f : β → α) (x : β) (l : List β) :
    (insertDesc (fun b => score (f b)) x l).map f = insertDesc score (f x) (l.map f) := by
  induction l with
  | nil => rfl
  | cons y ys ih =>
    by_cases h : score (f y) < score (f x)
    · simp [insertDesc, h]
    · simp [insertDesc, h, ih]

/-- Erasing extra information carried by the elements (such as original
positions) commutes with the sort, because the insertion decisions depend only
on the scores. -/
theorem sortDesc_map {α β : Type} (score : α → ℚ) (f : β → α) (l : List β) :
    (sortDesc (fun b => score (f b)) l).map f = sortDesc score (l.map f) := by
  suffices h : ∀ (l : List β) (acc : List β),
      (l.foldl (fun acc x => insertDesc (fun b => score (f b)) x acc) acc).map f =
        (l.map f).foldl (fun acc x => insertDesc score x acc) (acc.map f) by
    exact h l []
  intro l
  induction l with
  | nil => intro acc; rfl
  | cons a l ih =>
    intro acc
    simp only [List.foldl_cons, List.map_cons, ih, insertDesc_map]

/-- The positions attached by `List.enum` (hence by Python `enumerate`) are
strictly increasing along the list. -/
theorem pairwise_fst_lt_enumFrom {α : Type} (n : Nat) (l : List α) :
    (List.enumFrom n l).Pairwise (fun a b => a.1 < b.1) := by
  induction l generalizing n with
  | nil => simp
  | cons a l ih =>
    refine List.pairwise_cons.mpr ⟨?_, ih (n + 1)⟩
    rintro ⟨i, x⟩ hmem
    exact lt_of_lt_of_le (Nat.lt_succ_self n) (List.mem_enumFrom hmem).1

theorem pairwise_fst_lt_enum {α : Type} (l : List α) :
    l.enum.Pairwise (fun a b => a.1 < b.1) :=
  pairwise_fst_lt_enumFrom 0 l

/-- C2. The retrieval engine (i) returns at most `final_k` results, (ii) every
returned pair has stage-2 score at least `threshold`, (iii) the sorted survivor
list is a permutation of exactly the candidates passing the threshold, (iv) a
candidate survives iff it is a candidate and passes the threshold, (v) results
are ordered by descending stage-2 score, and (vi)-(vii) the order is stable:
running the same pipeline on the candidates tagged with their stage-1 positions
yields the same list (positions erased) and that list is ordered by descending
score with ties broken by ascending stage-1 position. -/
theorem C2_filter_sort_truncate (pairs : List (QPoint × ℚ)) (threshold : ℚ)
    (final_k : Nat) :
    (rankList Prod.snd threshold final_k pairs).length ≤ final_k
    ∧ (∀ x ∈ rankList Prod.snd threshold final_k pairs, threshold ≤ x.2)
    ∧ (sortDesc Prod.snd (keptList Prod.snd threshold pairs)).Perm
        (keptList Prod.snd threshold pairs)
    ∧ (∀ x, x ∈ keptList Prod.snd threshold pairs ↔ x ∈ pairs ∧ threshold ≤ x.2)
    ∧ (rankList Prod.snd threshold final_k pairs).Pairwise (fun x y => y.2 ≤ x.2)
    ∧ (rankList (fun e => e.2.2) threshold final_k pairs.enum).map Prod.snd
        = rankList Prod.snd threshold final_k pairs
    ∧ (rankList (fun e => e.2.2) threshold final_k pairs.enum).Pairwise
        (fun x y => y.2.2 < x.2.2 ∨ (x.2.2 = y.2.2 ∧ x.1 < y.1)) := by
  refine ⟨?_, ?_, sortDesc_perm _ _, ?_, ?_, ?_, ?_⟩
  · simpa [rankList] using Nat.min_le_left final_k _
  · intro x hx
    have hx1 : x ∈ sortDesc Prod.snd (keptList Prod.snd threshold pairs) :=
      List.mem_of_mem_take hx
    have hx2 : x ∈ keptList Prod.snd threshold pairs :=
      (sortDesc_perm Prod.snd _).mem_iff.mp hx1
    simpa [keptList, List.mem_filter] using (List.mem_filter.mp hx2).2
  · intro x
    simp [keptList, List.mem_filter]
  · exact ((sortDesc_sorted Prod.snd _).sublist (List.take_sublist _ _))
  · have hkept : (keptList (fun e => e.2.2) threshold pairs.enum).map Prod.snd
        = keptList Prod.snd threshold pairs := by
      have h := List.filter_map (p := fun x : QPoint × ℚ => decide (threshold ≤ x.2))
        (Prod.snd : Nat × (QPoint × ℚ) → QPoint × ℚ) pairs.enum
      rw [List.enum_map_snd] at h
      simp only [keptList, Function.comp] at h ⊢
      exact h.symm
    have hsort := sortDesc_map (Prod.snd : QPoint × ℚ → ℚ)
      (Prod.snd : Nat × (QPoint × ℚ) → QPoint × ℚ)
      (keptList (fun e => e.2.2) threshold pairs.enum)
    simp only [rankList, List.map_take]
    rw [hsort, hkept]
  · have hp : (keptList (fun e => e.2.2) threshold pairs.enum).Pairwise
        (fun a b => a.1 < b.1) :=
      (pairwise_fst_lt_enum pairs).filter _
    exact ((sortDesc_pairwise_lex (fun e => e.2.2) Prod.fst _ hp).sublist
      (List.take_sublist _ _))

/-- Witness for C2 on two candidates with scores 5 and 3 and threshold 4:
the single retained pair indeed scores at least the threshold. -/
theorem C2_filter_sort_truncate_witness :
    (4 : ℚ) ≤ ((⟨none, ⟨none, none, none, []⟩⟩ : QPoint), (5 : ℚ)).2 :=
  (C2_filter_sort_truncate
      [(⟨none, ⟨none, none, none, []⟩⟩, 5), (⟨none, ⟨none, none, none, []⟩⟩, 3)]
      4 1).2.1
    (⟨none, ⟨none, none, none, []⟩⟩, 5) (by decide)

/-- Raising the threshold only shrinks the survivor list. -/
theorem keptList_length_mono {α : Type} (score : α → ℚ) {t t' : ℚ} (h : t ≤ t')
    (l : List α) : (keptList score t' l).length ≤ (keptList score t l).length := by
  induction l with
  | nil => exact le_refl _
  | cons a l ih =>
    simp only [keptList] at ih ⊢
    rw [List.filter_cons, List.filter_cons]
    by_cases h1 : t' ≤ score a
    · have h2 : t ≤ score a := le_trans h h1
      simp [h1, h2]
      omega
    · by_cases h2 : t ≤ score a
      · simp [h1, h2]
        omega
      · simp [h1, h2]
        exact ih

/-- C6. Monotonicity of the retrieval pipeline in its knobs: raising
`threshold` never increases the result count; lowering `final_k` never
increases the result count; and, when `final_k` is large enough to hold every
survivor of the lower threshold, lowering the threshold removes no
previously-kept candidate at all — in particular it never removes a
previously-kept candidate whose score exceeds that of a newly-admitted one
(fourth conjunct, the claim's literal form). -/
theorem C6_threshold_finalk_monotonicity {α : Type} (score : α → ℚ) (l : List α)
    (t t' : ℚ) (k k' : Nat) :
    (t ≤ t' → (rankList score t' k l).length ≤ (rankList score t k l).length)
    ∧ (k' ≤ k → (rankList score t k' l).length ≤ (rankList score t k l).length)
    ∧ (t' ≤ t → (keptList score t' l).length ≤ k →
        ∀ x ∈ rankList score t k l, x ∈ rankList score t' k l)
    ∧ (t' ≤ t → (keptList score t' l).length ≤ k →
        ¬ ∃ x ∈ rankList score t k l, x ∉ rankList score t' k l ∧
            ∃ y ∈ rankList score t' k l, y ∉ rankList score t k l ∧
              score y < score x) := by
  have h3 : t' ≤ t → (keptList score t' l).length ≤ k →
      ∀ x ∈ rankList score t k l, x ∈ rankList score t' k l := by
    intro ht hk x hx
    have hx1 : x ∈ keptList score t l :=
      (sortDesc_perm score _).mem_iff.mp (List.mem_of_mem_take hx)
    have hx2 : x ∈ keptList score t' l := by
      rcases List.mem_filter.mp hx1 with ⟨hxl, hxs⟩
      refine List.mem_filter.mpr ⟨hxl, ?_⟩
      have : t ≤ score x := by simpa using hxs
      simpa using le_trans ht this
    have hfull : rankList score t' k l = sortDesc score (keptList score t' l) := by
      apply List.take_of_length_le
      rw [(sortDesc_perm score _).length_eq]
      exact hk
    rw [hfull]
    exact (sortDesc_perm score _).mem_iff.mpr hx2
  refine ⟨?_, ?_, h3, ?_⟩
  · intro h
    have hAB : (sortDesc score (keptList score t' l)).length ≤
        (sortDesc score (keptList score t l)).length := by
      rw [(sortDesc_perm score _).length_eq, (sortDesc_perm score _).length_eq]
      exact keptList_length_mono score h l
    simp only [rankList, List.length_take]
    exact inf_le_inf_left k hAB
  · intro hk
    simp only [rankList, List.length_take]
    exact inf_le_inf_right _ hk
  · intro ht hk h
    obtain ⟨x, hx, hxnot, -⟩ := h
    exact hxnot (h3 ht hk x hx)

/-- Witness for C6 on the score list `[5, 3]` (score = identity), thresholds 2
and 4, truncations 2 and 1. -/
theorem C6_threshold_finalk_monotonicity_witness :
    ((rankList (fun q : ℚ => q) 4 2 [(5 : ℚ), 3]).length ≤
        (rankList (fun q : ℚ => q) 2 2 [(5 : ℚ), 3]).length)
    ∧ ((rankList (fun q : ℚ => q) 2 1 [(5 : ℚ), 3]).length ≤
        (rankList (fun q : ℚ => q) 2 2 [(5 : ℚ), 3]).length)
    ∧ (5 : ℚ) ∈ rankList (fun q : ℚ => q) 2 2 [(5 : ℚ), 3]
    ∧ ¬ ∃ x ∈ rankList (fun q : ℚ => q) 4 2 [(5 : ℚ), 3],
          x ∉ rankList (fun q : ℚ => q) 2 2 [(5 : ℚ), 3] ∧
            ∃ y ∈ rankList (fun q : ℚ => q) 2 2 [(5 : ℚ), 3],
              y ∉ rankList (fun q : ℚ => q) 4 2 [(5 : ℚ), 3] ∧ y < x :=
  ⟨(C6_threshold_finalk_monotonicity (fun q : ℚ => q) [(5 : ℚ), 3] 2 4 2 1).1
      (by norm_num),
   (C6_threshold_finalk_monotonicity (fun q : ℚ => q) [(5 : ℚ), 3] 2 4 2 1).2.1
      (by norm_num),
   (C6_threshold_finalk_monotonicity (fun q : ℚ => q) [(5 : ℚ), 3] 4 2 2 1).2.2.1
      (by norm_num) (by decide) 5 (by decide),
   (C6_threshold_finalk_monotonicity (fun q : ℚ => q) [(5 : ℚ), 3] 4 2 2 1).2.2.2
      (by norm_num) (by decide)⟩

/-- C10. Per-index binding of each result to its own backing point: the result
list is index-aligned with the retained pair list, the `i`-th result is exactly
the `dict_chunk` built from the `i`-th retained pair (`enumerate(kept[:final_k])`),
and its `similarity_score` is that point's own `score` attribute when present
and `0` when the attribute is absent (`float(getattr(p, "score", 0))`) — the
field is always present, never an error. -/
theorem C10_similarity_score_default (pairs : List (QPoint × ℚ)) (threshold : ℚ)
    (final_k : Nat) :
    (buildResults pairs threshold final_k).length =
        (rankList Prod.snd threshold final_k pairs).length
    ∧ ∀ (i : Nat) (hi : i < (buildResults pairs threshold final_k).length)
        (hr : i < (rankList Prod.snd threshold final_k pairs).length),
        (buildResults pairs threshold final_k).get ⟨i, hi⟩ =
          mkResult i ((rankList Prod.snd threshold final_k pairs).get ⟨i, hr⟩).1
            ((rankList Prod.snd threshold final_k pairs).get ⟨i, hr⟩).2
        ∧ ((buildResults pairs threshold final_k).get ⟨i, hi⟩).similarity_score =
            (((rankList Prod.snd threshold final_k pairs).get ⟨i, hr⟩).1.score).getD 0
        ∧ (((rankList Prod.snd threshold final_k pairs).get ⟨i, hr⟩).1.score = none →
            ((buildResults pairs threshold final_k).get ⟨i, hi⟩).similarity_score = 0)
        ∧ ∀ v,
            ((rankList Prod.snd threshold final_k pairs).get ⟨i, hr⟩).1.score = some v →
            ((buildResults pairs threshold final_k).get ⟨i, hi⟩).similarity_score = v := by
  have hlen : (buildResults pairs threshold final_k).length =
      (rankList Prod.snd threshold final_k pairs).length := by
    simp [buildResults, List.enum_length]
  refine ⟨hlen, ?_⟩
  intro i hi hr
  have hget : (buildResults pairs threshold final_k).get ⟨i, hi⟩ =
      mkResult i ((rankList Prod.snd threshold final_k pairs).get ⟨i, hr⟩).1
        ((rankList Prod.snd threshold final_k pairs).get ⟨i, hr⟩).2 := by
    simp only [buildResults, List.get_eq_getElem, List.getElem_map, List.getElem_enum]
  refine ⟨hget, ?_, ?_, ?_⟩
  · rw [hget]
    simp [mkResult]
  · intro h0
    rw [hget]
    rw [List.get_eq_getElem] at h0
    simp [mkResult, h0]
  · intro v hv
    rw [hget]
    rw [List.get_eq_getElem] at hv
    simp [mkResult, hv]

/-- Witness for C10 on a single retained point with no score attribute: the
0-th result is the dict built from the 0-th retained pair and reports
similarity score 0. -/
theorem C10_similarity_score_default_witness :
    (buildResults [((⟨none, ⟨none, none, none, []⟩⟩ : QPoint), (5 : ℚ))] 0 1).length =
        (rankList Prod.snd 0 1
          [((⟨none, ⟨none, none, none, []⟩⟩ : QPoint), (5 : ℚ))]).length
    ∧ (buildResults [((⟨none, ⟨none, none, none, []⟩⟩ : QPoint), (5 : ℚ))] 0 1).get
        ⟨0, by decide⟩ =
        mkResult 0
          ((rankList Prod.snd 0 1
            [((⟨none, ⟨none, none, none, []⟩⟩ : QPoint), (5 : ℚ))]).get ⟨0, by decide⟩).1
          ((rankList Prod.snd 0 1
            [((⟨none, ⟨none, none, none, []⟩⟩ : QPoint), (5 : ℚ))]).get ⟨0, by decide⟩).2
    ∧ (((rankList Prod.snd 0 1
          [((⟨none, ⟨none, none, none, []⟩⟩ : QPoint), (5 : ℚ))]).get
            ⟨0, by decide⟩).1.score = none →
        ((buildResults [((⟨none, ⟨none, none, none, []⟩⟩ : QPoint), (5 : ℚ))] 0 1).get
          ⟨0, by decide⟩).similarity_score = 0) :=
  ⟨(C10_similarity_score_default
      [((⟨none, ⟨none, none, none, []⟩⟩ : QPoint), (5 : ℚ))] 0 1).1,
   ((C10_similarity_score_default
      [((⟨none, ⟨none, none, none, []⟩⟩ : QPoint), (5 : ℚ))] 0 1).2
      0 (by decide) (by decide)).1,
   ((C10_similarity_score_default
      [((⟨none, ⟨none, none, none, []⟩⟩ : QPoint), (5 : ℚ))] 0 1).2
      0 (by decide) (by decide)).2.2.1⟩

/-- One `parentsStep` either leaves the map unchanged, or appends one entry
for a not-yet-present `some` id that the store resolves. -/
theorem parentsStep_cases (store : List (String × Text))
    (acc : List (Option String × Text)) (pid : Option String) :
    parentsStep store acc pid = acc ∨
      ∃ k row, pid = some k ∧
        ((acc.find? fun kv => kv.1 = pid).isSome = false) ∧
        (store.find? fun row => row.1 = k) = some row ∧
        parentsStep store acc pid = acc ++ [(pid, row.2)] := by
  unfold parentsStep
  by_cases hf : (acc.find? fun kv => kv.1 = pid).isSome = true
  · rw [if_pos hf]
    exact Or.inl rfl
  · have hf' : (acc.find? fun kv => kv.1 = pid).isSome = false :=
      Bool.eq_false_iff.mpr hf
    rw [if_neg hf]
    cases pid with
    | none => exact Or.inl rfl
    | some k =>
      dsimp only
      cases hsf : store.find? fun row => row.1 = k with
      | none => exact Or.inl rfl
      | some row => exact Or.inr ⟨k, row, rfl, hf', hsf, rfl⟩

/-- Invariant of the parents-map fold: keys stay duplicate-free, and every
entry either was already in the accumulator or is justified by a result in the
remaining list together with a successful store lookup. -/
theorem buildParents_aux (store : List (String × Text)) :
    ∀ (results : List RResult) (acc : List (Option String × Text)),
      (acc.map Prod.fst).Nodup →
      ((results.foldl (fun ps r => parentsStep store ps r.parent_id) acc).map
          Prod.fst).Nodup
      ∧ ∀ kv ∈ results.foldl (fun ps r => parentsStep store ps r.parent_id) acc,
          kv ∈ acc ∨
            ((∃ r ∈ results, r.parent_id = kv.1) ∧
              ∃ k row, kv.1 = some k ∧
                (store.find? fun row => row.1 = k) = some row ∧
                row ∈ store ∧ row.1 = k ∧ kv.2 = row.2) := by
  intro results
  induction results with
  | nil =>
    intro acc hacc
    exact ⟨hacc, fun kv hkv => Or.inl hkv⟩
  | cons r rs ih =>
    intro acc hacc
    rcases parentsStep_cases store acc r.parent_id with heq | ⟨k, row, hpid, hnf, hsf, heq⟩
    · simp only [List.foldl_cons, heq]
      obtain ⟨h1, h2⟩ := ih acc hacc
      refine ⟨h1, ?_⟩
      intro kv hkv
      rcases h2 kv hkv with hin | ⟨⟨r', hr', hp⟩, hrest⟩
      · exact Or.inl hin
      · exact Or.inr ⟨⟨r', List.mem_cons_of_mem r hr', hp⟩, hrest⟩
    · have hknot : (some k : Option String) ∉ acc.map Prod.fst := by
        intro hmem
        rcases List.mem_map.mp hmem with ⟨kv, hkv, hk1⟩
        have hex : ∃ x ∈ acc,
            (fun kv : Option String × Text => decide (kv.1 = r.parent_id)) x = true :=
          ⟨kv, hkv, by simp [hk1, hpid]⟩
        have hsome := List.find?_isSome.mpr hex
        rw [hnf] at hsome
        exact Bool.false_ne_true hsome
      have hacc' : ((acc ++ [(r.parent_id, row.2)]).map Prod.fst).Nodup := by
        rw [List.map_append, List.nodup_append]
        refine ⟨hacc, List.nodup_singleton _, ?_⟩
        intro x hx hx'
        simp only [List.map_cons, List.map_nil, List.mem_singleton] at hx'
        rw [hpid] at hx'
        exact hknot (hx' ▸ hx)
      simp only [List.foldl_cons, heq]
      obtain ⟨h1, h2⟩ := ih (acc ++ [(r.parent_id, row.2)]) hacc'
      refine ⟨h1, ?_⟩
      intro kv hkv
      rcases h2 kv hkv with hin | ⟨⟨r', hr', hp⟩, hrest⟩
      · rcases List.mem_append.mp hin with hin' | hone
        · exact Or.inl hin'
        · have hkv1 : kv = (r.parent_id, row.2) := List.mem_singleton.mp hone
          subst hkv1
          refine Or.inr ⟨⟨r, List.mem_cons_self r rs, rfl⟩, k, row, hpid, hsf,
            List.mem_of_find?_eq_some hsf, ?_, rfl⟩
          have hrow := List.find?_some hsf
          simpa using hrow
      · exact Or.inr ⟨⟨r', List.mem_cons_of_mem r hr', hp⟩, hrest⟩

/-- C8. The parents map of a query: its keys are duplicate-free (at most one
entry per distinct parent id, even when several retained chunks share one),
every entry's id is the parent id of some retained result, and every entry
comes from a successful lookup in the paragraph store (no entry for an id
missing from the store), carrying that row's text. -/
theorem C8_parents_unique_referenced_present (store : List (String × Text))
    (pairs : List (QPoint × ℚ)) (threshold : ℚ) (final_k : Nat) :
    (((search_and_rerank pairs store threshold final_k).2).map Prod.fst).Nodup
    ∧ ∀ kv ∈ (search_and_rerank pairs store threshold final_k).2,
        (∃ r ∈ (search_and_rerank pairs store threshold final_k).1,
          r.parent_id = kv.1)
        ∧ ∃ k row, kv.1 = some k ∧
            (store.find? fun row => row.1 = k) = some row ∧
            row ∈ store ∧ row.1 = k ∧ kv.2 = row.2 := by
  obtain ⟨h1, h2⟩ :=
    buildParents_aux store (buildResults pairs threshold final_k) [] (by simp)
  refine ⟨h1, ?_⟩
  intro kv hkv
  rcases h2 kv hkv with hin | ⟨href, hrest⟩
  · simp at hin
  · exact ⟨href, hrest⟩

/-- Witness for C8: two retained chunks share parent id `"p1"`, which the store
resolves; the parents map has duplicate-free keys and the entry
`(some "p1", "t")` is referenced and store-backed. -/
theorem C8_parents_unique_referenced_present_witness :
    (((search_and_rerank
          [((⟨none, ⟨none, none, some "p1", []⟩⟩ : QPoint), (5 : ℚ)),
           ((⟨none, ⟨none, none, some "p1", []⟩⟩ : QPoint), (4 : ℚ))]
          [("p1", ['t'])] 0 3).2).map Prod.fst).Nodup
    ∧ ((∃ r ∈ (search_and_rerank
          [((⟨none, ⟨none, none, some "p1", []⟩⟩ : QPoint), (5 : ℚ)),
           ((⟨none, ⟨none, none, some "p1", []⟩⟩ : QPoint), (4 : ℚ))]
          [("p1", ['t'])] 0 3).1,
          r.parent_id = ((some "p1", ['t']) : Option String × Text).1)
        ∧ ∃ k row, ((some "p1", ['t']) : Option String × Text).1 = some k ∧
            (List.find? (fun row => row.1 = k) [("p1", ['t'])]) = some row ∧
            row ∈ [("p1", ['t'])] ∧ row.1 = k ∧
            ((some "p1", ['t']) : Option String × Text).2 = row.2) :=
  ⟨(C8_parents_unique_referenced_present [("p1", ['t'])]
      [((⟨none, ⟨none, none, some "p1", []⟩⟩ : QPoint), (5 : ℚ)),
       ((⟨none, ⟨none, none, some "p1", []⟩⟩ : QPoint), (4 : ℚ))] 0 3).1,
   (C8_parents_unique_referenced_present [("p1", ['t'])]
      [((⟨none, ⟨none, none, some "p1", []⟩⟩ : QPoint), (5 : ℚ)),
       ((⟨none, ⟨none, none, some "p1", []⟩⟩ : QPoint), (4 : ℚ))] 0 3).2
     ((some "p1", ['t']) : Option String × Text) (by decide)⟩

/-- C3 counterexample. The paragraph/chunk store loader does not recover from
malformed JSON: on an existing store whose content fails to decode it
propagates the error instead of returning the empty list, refuting the claim
that corrupted stores are treated as empty and loading never raises. -/
theorem C3_corrupt_store_raises :
    load_json_or_empty (α := ParagraphRec) true ("not json".toList) (fun _ => none) =
        Except.error ()
    ∧ load_json_or_empty (α := ParagraphRec) true ("not json".toList) (fun _ => none) ≠
        Except.ok [] :=
  ⟨rfl, fun h => Except.noConfusion h⟩

/-- C3 as amended: the registry loader returns the empty set on a missing
file, on empty/whitespace-only content and on malformed JSON, never raising;
the paragraph/chunk store loader returns the empty list only on a missing
file, returns the decoded list on well-formed content, and propagates a decode
error on malformed content. -/
theorem C3_loader_tolerance {α : Type} (content : Text)
    (parseR : Text → Option (List String)) (parseS : Text → Option (List α)) :
    load_registry false content parseR = Except.ok ∅
    ∧ (pyStrip content = [] → load_registry true content parseR = Except.ok ∅)
    ∧ (parseR (pyStrip content) = none → load_registry true content parseR = Except.ok ∅)
    ∧ (∀ l, pyStrip content ≠ [] → parseR (pyStrip content) = some l →
        load_registry true content parseR = Except.ok l.toFinset)
    ∧ load_json_or_empty false content parseS = Except.ok []
    ∧ (parseS content = none → load_json_or_empty true content parseS = Except.error ())
    ∧ (∀ l, parseS content = some l → load_json_or_empty true content parseS = Except.ok l) := by
  refine ⟨rfl, ?_, ?_, ?_, rfl, ?_, ?_⟩
  · intro h
    simp [load_registry, h]
  · intro h
    by_cases he : (pyStrip content).isEmpty
    · simp [load_registry, he]
    · simp [load_registry, he, h]
  · intro l hne hl
    have he : (pyStrip content).isEmpty = false := by
      rw [← Bool.not_eq_true, List.isEmpty_iff]
      exact hne
    simp [load_registry, he, hl]
  · intro h
    simp [load_json_or_empty, h]
  · intro l hl
    simp [load_json_or_empty, hl]

/-- Witness for C3 at the content `"not json"` with a failing decoder: the
registry loader recovers with the empty set, the chunk-store loader errors. -/
theorem C3_loader_tolerance_witness :
    load_registry true ("not json".toList) (fun _ => none) = Except.ok ∅
    ∧ load_json_or_empty (α := ChunkRec) true ("not json".toList) (fun _ => none) =
        Except.error () :=
  ⟨(C3_loader_tolerance ("not json".toList) (fun _ => none)
      (fun _ => (none : Option (List ChunkRec)))).2.2.1 rfl,
   (C3_loader_tolerance ("not json".toList) (fun _ => none)
      (fun _ => (none : Option (List ChunkRec)))).2.2.2.2.2.1 rfl⟩

/-- C5 counterexample. An empty `.txt` file and a `.docx` with no non-blank
paragraph each yield a page whose text is empty — such pages are not dropped,
refuting the claim for two of the three supported formats. -/
theorem C5_empty_page_not_dropped :
    (read_txt []).all (fun pg => !pg.text.isEmpty) = false
    ∧ (read_docx []).all (fun pg => !pg.text.isEmpty) = false := by
  constructor <;> rfl

/-- C5 as amended: `read_pdf` returns pages in increasing page order, numbered
from 1, each with non-empty stripped text (blank pages dropped); `read_docx`
and `read_txt` each return exactly one page numbered 1 whose text is stripped
but possibly empty (an all-blank document is not dropped). -/
theorem C5_reader_page_contract (pageTexts paras : List Text) (content : Text) :
    ((read_pdf pageTexts).Pairwise fun a b => a.page_number < b.page_number)
    ∧ (∀ pg ∈ read_pdf pageTexts,
        1 ≤ pg.page_number ∧ pg.text ≠ [] ∧ pyStrip pg.text = pg.text)
    ∧ (∃ t, read_docx paras = [{ page_number := 1, text := t }] ∧ pyStrip t = t)
    ∧ read_txt content = [{ page_number := 1, text := pyStrip content }] := by
  refine ⟨?_, ?_, ⟨_, rfl, pyStrip_idem _⟩, rfl⟩
  · refine List.Pairwise.filterMap _ ?_ (pairwise_fst_lt_enumFrom 1 pageTexts)
    intro a a' hlt b hb b' hb'
    by_cases ha : (pyStrip a.2).isEmpty <;> by_cases ha' : (pyStrip a'.2).isEmpty <;>
      simp [ha, ha'] at hb hb'
    rw [← hb, ← hb']
    exact hlt
  · intro pg hpg
    rcases List.mem_filterMap.mp hpg with ⟨it, hit, hsome⟩
    by_cases he : (pyStrip it.2).isEmpty
    · simp [he] at hsome
    · simp only [he, if_neg, Bool.false_eq_true, not_false_iff] at hsome
      obtain ⟨i, x⟩ := it
      have h1 := (List.mem_enumFrom hit).1
      rcases Option.some.inj hsome with rfl
      refine ⟨h1, ?_, pyStrip_idem x⟩
      intro hnil
      exact he (by simpa [List.isEmpty_iff] using hnil)

/-- Witness for C5 at the one-page PDF text `"a"`, empty DOCX, content `"b"`. -/
theorem C5_reader_page_contract_witness :
    1 ≤ (⟨1, ['a']⟩ : PageRec).page_number ∧ (⟨1, ['a']⟩ : PageRec).text ≠ [] ∧
      pyStrip (PageRec.text ⟨1, ['a']⟩) = (⟨1, ['a']⟩ : PageRec).text :=
  (C5_reader_page_contract [['a']] [] ['b']).2.1 ⟨1, ['a']⟩ (by decide)

/-- Pointwise description of an upsert: the last write wins, otherwise the
previous collection value remains. -/
theorem upsertPoints_apply (pts : List (Text × ChunkRow))
    (coll : Text → Option ChunkRow) (k : Text) :
    upsertPoints coll pts k =
      match lastWrite pts k with
      | some v => some v
      | none => coll k := by
  induction pts generalizing coll with
  | nil => rfl
  | cons p ps ih =>
    show upsertPoints (Function.update coll p.1 (some p.2)) ps k = _
    rw [ih]
    cases hl : lastWrite ps k with
    | some v => simp [lastWrite, hl]
    | none =>
      simp only [lastWrite, hl]
      by_cases hk : p.1 = k
      · simp [Function.update_apply, hk]
      · have hk' : ¬k = p.1 := fun h => hk h.symm
        simp [Function.update_apply, hk, hk']

/-- C7. The point identifier is a deterministic content key of
(document, page, parent id, chunk text): records agreeing on the four fields
get equal ids; re-running the whole upsert on an unchanged point list leaves
the collection unchanged (same ids, same payloads — overwrite, never
duplicate); and changing only the chunk text changes the id. -/
theorem C7_content_id_and_idempotence (rows : List ChunkRow)
    (coll : Text → Option ChunkRow) (r1 r2 : ChunkRow) :
    (r1.Doc = r2.Doc → r1.Page = r2.Page → r1.Parent = r2.Parent →
      r1.Chunk = r2.Chunk → unique_id r1 = unique_id r2)
    ∧ upsertPoints (upsertPoints coll (mkPoints rows)) (mkPoints rows)
        = upsertPoints coll (mkPoints rows)
    ∧ (r1.Doc = r2.Doc → r1.Page = r2.Page → r1.Parent = r2.Parent →
      r1.Chunk ≠ r2.Chunk → unique_id r1 ≠ unique_id r2) := by
  refine ⟨?_, ?_, ?_⟩
  · intro h1 h2 h3 h4
    unfold unique_id
    rw [h1, h2, h3, h4]
  · funext k
    rw [upsertPoints_apply, upsertPoints_apply]
    cases hl : lastWrite (mkPoints rows) k with
    | some v => rfl
    | none => rfl
  · intro h1 h2 h3 hne heq
    apply hne
    unfold unique_id at heq
    rw [h1, h2, h3] at heq
    have e1 := List.append_cancel_left heq
    exact (List.cons_eq_cons.mp e1).2

/-- Witness for C7: two rows differing only in chunk text get different ids;
the doubled upsert of one concrete row equals the single upsert. -/
theorem C7_content_id_and_idempotence_witness :
    unique_id ⟨['a'], "d", 1, "p"⟩ = unique_id ⟨['a'], "d", 1, "p"⟩
    ∧ upsertPoints (upsertPoints (fun _ => none) (mkPoints [⟨['a'], "d", 1, "p"⟩]))
        (mkPoints [⟨['a'], "d", 1, "p"⟩])
        = upsertPoints (fun _ => none) (mkPoints [⟨['a'], "d", 1, "p"⟩])
    ∧ unique_id ⟨['a'], "d", 1, "p"⟩ ≠ unique_id ⟨['b'], "d", 1, "p"⟩ :=
  ⟨(C7_content_id_and_idempotence [⟨['a'], "d", 1, "p"⟩] (fun _ => none)
      ⟨['a'], "d", 1, "p"⟩ ⟨['a'], "d", 1, "p"⟩).1 rfl rfl rfl rfl,
   (C7_content_id_and_idempotence [⟨['a'], "d", 1, "p"⟩] (fun _ => none)
      ⟨['a'], "d", 1, "p"⟩ ⟨['a'], "d", 1, "p"⟩).2.1,
   (C7_content_id_and_idempotence [⟨['a'], "d", 1, "p"⟩] (fun _ => none)
      ⟨['a'], "d", 1, "p"⟩ ⟨['b'], "d", 1, "p"⟩).2.2 rfl rfl rfl (by decide)⟩

/-- If a list decomposes around an occurrence of `x` and `x` does not occur in
a front segment `P` of the list, then all of `P` lies before the occurrence. -/
theorem front_subset_of_decomp {α : Type} (P : List α) :
    ∀ (Q l1 l2 : List α) (x : α), P ++ Q = l1 ++ x :: l2 → x ∉ P →
      ∀ y ∈ P, y ∈ l1 := by
  induction P with
  | nil => intro Q l1 l2 x h hx y hy; simp at hy
  | cons p P ih =>
    intro Q l1 l2 x h hx y hy
    cases l1 with
    | nil =>
      rw [List.nil_append] at h
      have hpx : p = x := (List.cons_eq_cons.mp h).1
      exact absurd (hpx ▸ List.mem_cons_self p P) hx
    | cons a l1' =>
      rw [List.cons_append, List.cons_append] at h
      obtain ⟨hpa, htail⟩ := List.cons_eq_cons.mp h
      rcases List.mem_cons.mp hy with rfl | hy'
      · exact hpa ▸ List.mem_cons_self a l1'
      · exact List.mem_cons_of_mem a
          (ih Q l1' l2 x htail (fun hx' => hx (List.mem_cons_of_mem p hx')) y hy')

/-- C4. In any pass trace: a registry save whose persisted content contains a
processed file's name occurs only after that file's archive move; and any
archive move occurs only after both the paragraph-store and the chunk-store
writes. -/
theorem C4_archive_before_registry_stores_before_archive (flag : Bool)
    (registry : Finset String) (intake : List IntakeFile)
    (l1 l2 : List OrchEvent) (f : IntakeFile) (r : Finset String) (n : String) :
    (mainEvents flag registry intake = l1 ++ OrchEvent.saveRegistry r :: l2 →
      f ∈ newFiles registry intake → f.name ∈ r →
      OrchEvent.moveFile f.name ∈ l1)
    ∧ (mainEvents flag registry intake = l1 ++ OrchEvent.moveFile n :: l2 →
      OrchEvent.writeParagraphs ∈ l1 ∧ OrchEvent.writeChunks ∈ l1) := by
  constructor
  · intro h hf hfr
    have hne : (newFiles registry intake).isEmpty = false := by
      rcases hn : newFiles registry intake with - | ⟨g, gs⟩
      · rw [hn] at hf; simp at hf
      · rfl
    have hassoc : mainEvents flag registry intake =
        ((if flag then [OrchEvent.saveRegistry ∅] else []) ++
          ([OrchEvent.writeParagraphs, OrchEvent.writeChunks] ++
            (newFiles registry intake).map (fun g => OrchEvent.moveFile g.name))) ++
          [OrchEvent.saveRegistry
            (registry ∪ ((newFiles registry intake).map (fun g => g.name)).toFinset)] := by
      rw [mainEvents, hne]
      simp [List.append_assoc]
    have hmem : OrchEvent.moveFile f.name ∈
        (if flag then [OrchEvent.saveRegistry ∅] else []) ++
          ([OrchEvent.writeParagraphs, OrchEvent.writeChunks] ++
            (newFiles registry intake).map (fun g => OrchEvent.moveFile g.name)) := by
      refine List.mem_append.mpr (Or.inr ?_)
      refine List.mem_append.mpr (Or.inr ?_)
      exact List.mem_map.mpr ⟨f, hf, rfl⟩
    have hnotin : OrchEvent.saveRegistry r ∉
        (if flag then [OrchEvent.saveRegistry ∅] else []) ++
          ([OrchEvent.writeParagraphs, OrchEvent.writeChunks] ++
            (newFiles registry intake).map (fun g => OrchEvent.moveFile g.name)) := by
      intro hmem'
      rcases List.mem_append.mp hmem' with h1 | h2
      · cases flag with
        | true =>
          have he : OrchEvent.saveRegistry r = OrchEvent.saveRegistry ∅ := by
            simpa using h1
          have hr : r = (∅ : Finset String) := by injection he
          rw [hr] at hfr
          simp at hfr
        | false => simp at h1
      · rcases List.mem_append.mp h2 with h3 | h4
        · rcases List.mem_cons.mp h3 with h5 | h6
          · exact OrchEvent.noConfusion h5
          · exact OrchEvent.noConfusion (List.mem_singleton.mp h6)
        · rcases List.mem_map.mp h4 with ⟨g, -, hg⟩
          exact OrchEvent.noConfusion hg
    rw [hassoc] at h
    exact front_subset_of_decomp _ _ l1 l2 (OrchEvent.saveRegistry r) h hnotin
      (OrchEvent.moveFile f.name) hmem
  · intro h
    rcases hn : (newFiles registry intake).isEmpty with - | -
    · have hassoc : mainEvents flag registry intake =
          ((if flag then [OrchEvent.saveRegistry ∅] else []) ++
            [OrchEvent.writeParagraphs, OrchEvent.writeChunks]) ++
            ((newFiles registry intake).map (fun g => OrchEvent.moveFile g.name) ++
              [OrchEvent.saveRegistry
                (registry ∪ ((newFiles registry intake).map (fun g => g.name)).toFinset)]) := by
        rw [mainEvents, hn]
        simp [List.append_assoc]
      have hnotin : OrchEvent.moveFile n ∉
          (if flag then [OrchEvent.saveRegistry ∅] else []) ++
            [OrchEvent.writeParagraphs, OrchEvent.writeChunks] := by
        intro hmem'
        rcases List.mem_append.mp hmem' with h1 | h2
        · cases flag with
          | true => simp at h1
          | false => simp at h1
        · rcases List.mem_cons.mp h2 with h3 | h4
          · exact OrchEvent.noConfusion h3
          · exact OrchEvent.noConfusion (List.mem_singleton.mp h4)
      rw [hassoc] at h
      have hsub := front_subset_of_decomp _ _ l1 l2 (OrchEvent.moveFile n) h hnotin
      constructor
      · exact hsub OrchEvent.writeParagraphs
          (List.mem_append.mpr (Or.inr (List.mem_cons_self _ _)))
      · exact hsub OrchEvent.writeChunks
          (List.mem_append.mpr (Or.inr (List.mem_cons_of_mem _ (List.mem_cons_self _ _))))
    · exfalso
      have hmem : OrchEvent.moveFile n ∈ mainEvents flag registry intake := by
        rw [h]
        exact List.mem_append.mpr (Or.inr (List.mem_cons_self _ _))
      rw [mainEvents, hn] at hmem
      cases flag <;> simp at hmem

/-- Witness for C4 on a pass over the single intake file `a.txt` with an empty
registry: the final registry save is preceded by the archive move, and the
move is preceded by both store writes. -/
theorem C4_archive_before_registry_stores_before_archive_witness :
    OrchEvent.moveFile "a.txt" ∈
      [OrchEvent.writeParagraphs, OrchEvent.writeChunks, OrchEvent.moveFile "a.txt"]
    ∧ (OrchEvent.writeParagraphs ∈ [OrchEvent.writeParagraphs, OrchEvent.writeChunks]
       ∧ OrchEvent.writeChunks ∈ [OrchEvent.writeParagraphs, OrchEvent.writeChunks]) :=
  ⟨(C4_archive_before_registry_stores_before_archive false ∅ [⟨"a.txt", ".txt"⟩]
      [OrchEvent.writeParagraphs, OrchEvent.writeChunks, OrchEvent.moveFile "a.txt"] []
      ⟨"a.txt", ".txt"⟩ (∅ ∪ (["a.txt"] : List String).toFinset) "x").1
      (by decide) (by decide) (by decide),
   (C4_archive_before_registry_stores_before_archive false ∅ [⟨"a.txt", ".txt"⟩]
      [OrchEvent.writeParagraphs, OrchEvent.writeChunks]
      [OrchEvent.saveRegistry (∅ ∪ (["a.txt"] : List String).toFinset)]
      ⟨"a.txt", ".txt"⟩ ∅ "a.txt").2 (by decide)⟩

end RAGAgent
